import Mathlib

/-!
Shallow embedding of the chunking / fan-out / aggregation pipeline of the
llm-playground repository (src/qna_pair_generate.py and src/summary.py),
together with theorems settling the frozen claims about it.

Conventions used throughout:
* Python strings are Lean `String`s; character-level operations go through
  `String.toList`.
* The `while` loop of `chunk_text_with_overlap` is embedded as a
  fuel-indexed recursion returning `Option`: `none` means the fuel was
  exhausted while the loop guard still held (the loop did not terminate
  within that many iterations), `some` is normal exit.  The top-level
  wrapper supplies fuel equal to the token count, which is shown
  sufficient whenever `overlap < chunk_size`.
* Thread-pool completion order is modelled by quantifying over the list of
  per-chunk outcomes in the order the aggregation loop consumes them; a
  raised exception / failed call is `Except.error`.
-/

/-- Whitespace test used by Python `str.split()` / `str.strip()`
(ASCII whitespace: space, tab, newline, carriage return, vertical tab,
form feed). -/
def pyIsSpace (c : Char) : Bool :=
  c = ' ' || c = '\t' || c = '\n' || c = '\r' || c = '\x0b' || c = '\x0c'

/-- Accumulator-passing worker for Python `str.split()` with no argument:
maximal runs of non-whitespace characters, empty tokens dropped.
`acc` holds the current token, reversed. -/
def splitAux : List Char → List Char → List (List Char)
  | [], acc => if acc = [] then [] else [acc.reverse]
  | c :: cs, acc =>
    if pyIsSpace c then
      if acc = [] then splitAux cs [] else acc.reverse :: splitAux cs []
    else splitAux cs (c :: acc)

/-- Embeds `text.split()` from line 55 of src/qna_pair_generate.py: the
whitespace-delimited tokens of a string. -/
def pySplitTokens (text : String) : List (List Char) :=
  splitAux text.toList []

/-- Python `str.strip()` on a character list: remove leading and trailing
whitespace. -/
def pyStripChars (l : List Char) : List Char :=
  ((l.dropWhile pyIsSpace).reverse.dropWhile pyIsSpace).reverse

/-- Python `str.strip()` on strings. -/
def pyStrip (s : String) : String :=
  String.mk (pyStripChars s.toList)

/-- ASCII lowering of one character, as done by Python `str.lower()` on
the ASCII questions the parser produces. -/
def pyLowerChar (c : Char) : Char :=
  if 'A' ≤ c ∧ c ≤ 'Z' then Char.ofNat (c.toNat + 32) else c

/-- Python `str.lower()` on a character list. -/
def pyLowerChars (l : List Char) : List Char :=
  l.map pyLowerChar

/-- The `while start < len(words)` loop of `chunk_text_with_overlap`
(src/qna_pair_generate.py lines 57-61), fuel-indexed and generic in the
token type.  Each iteration emits `words[start : start + chunk_size]`
(clipped at the end) and advances `start` by `chunk_size - overlap`
(truncated subtraction: a non-positive Python step is a non-advancing
window, i.e. divergence, and so is step 0 here).  `none` = fuel ran out
with the guard still true. -/
def chunkTokensLoop {α : Type} (ws : List α) (chunk_size overlap : Nat) :
    Nat → Nat → Option (List (List α))
  | 0, start => if start < ws.length then none else some []
  | fuel + 1, start =>
    if start < ws.length then
      (chunkTokensLoop ws chunk_size overlap fuel (start + (chunk_size - overlap))).map
        (fun rest => ((ws.drop start).take chunk_size) :: rest)
    else some []

/-- Token-level result of `chunk_text_with_overlap`: the list of token
slices the loop produces, run with fuel equal to the token count. -/
def tokenChunks (text : String) (chunk_size overlap : Nat) :
    Option (List (List (List Char))) :=
  chunkTokensLoop (pySplitTokens text) chunk_size overlap
    (pySplitTokens text).length 0

/-- Embeds the join `" ".join(words[start:end])` from line 60: a chunk is its tokens
joined by single spaces. -/
def joinTok (ws : List (List Char)) : String :=
  String.mk (List.intercalate [' '] ws)

/-- Embeds `chunk_text_with_overlap` (src/qna_pair_generate.py lines 51-62).
Returns `none` when the loop does not terminate within token-count many
iterations (which happens exactly when the window does not advance). -/
def chunk_text_with_overlap (text : String) (chunk_size : Nat := 300)
    (overlap : Nat := 50) : Option (List String) :=
  (tokenChunks text chunk_size overlap).map (fun cs => cs.map joinTok)

/-- Concatenation of the non-overlapping prefixes of successive chunks:
every chunk but the last contributes its first `step` tokens, the last
chunk contributes itself whole. -/
def coverJoin {α : Type} (step : Nat) : List (List α) → List α
  | [] => []
  | [c] => c
  | c :: rest => c.take step ++ coverJoin step rest

/-- One message of a chat payload (`{"role": ..., "content": ...}`). -/
structure Message where
  role : String
  content : String
deriving DecidableEq, Repr

/-- One generated QA record: the fixed 3-turn `messages` object built at
lines 113-119 of src/qna_pair_generate.py. -/
structure QARecord where
  messages : List Message
deriving DecidableEq, Repr

/-- The system message content of every emitted record (line 115). -/
def sysContent : String :=
  "You are a helpful assistant that answers questions about Saud\x27s resume and GitHub projects."

/-- The record object appended at lines 113-119: system, user=question,
assistant=answer. -/
def mkQA (q a : String) : QARecord :=
  ⟨[⟨"system", sysContent⟩, ⟨"user", q⟩, ⟨"assistant", a⟩]⟩

/-- Embeds `line.startswith(tag)` for a two-character tag. -/
def hasTag (tag : List Char) (line : String) : Bool :=
  line.toList.take tag.length == tag

/-- The `"Q:"` tag. -/
def qTag : List Char := ['Q', ':']

/-- The `"A:"` tag. -/
def aTag : List Char := ['A', ':']

/-- Embeds `line[2:].strip()` (lines 110 and 112). -/
def afterTag (line : String) : String :=
  String.mk (pyStripChars (line.toList.drop 2))

/-- The Q:/A: line-scanning loop of `generate_qa_from_chunk`
(src/qna_pair_generate.py lines 106-121).  The state is Python's
`current_q`: `none` for `None`; a `some ""` is falsy in Python, so an
`A:` line then leaves the state unchanged and emits nothing. -/
def parseQAAux (curQ : Option String) : List String → List QARecord
  | [] => []
  | line :: rest =>
    if hasTag qTag line then parseQAAux (some (afterTag line)) rest
    else if hasTag aTag line then
      match curQ with
      | some q =>
        if q = "" then parseQAAux (some q) rest
        else mkQA q (afterTag line) :: parseQAAux none rest
      | none => parseQAAux none rest
    else parseQAAux curQ rest

/-- The parser applied to the lines of a generation output, starting with
`current_q = None`. -/
def parse_qa_lines (lines : List String) : List QARecord :=
  parseQAAux none lines

/-- Decidable search for the pairing property: the record equals
`mkQA` of a `Q:` line at index `i` and a strictly later `A:` line at
index `j`. -/
def pairedWith (lines : List String) (r : QARecord) : Bool :=
  (List.range lines.length).any (fun j =>
    hasTag aTag (lines.getD j "") &&
      (List.range j).any (fun i =>
        hasTag qTag (lines.getD i "") &&
          decide (r = mkQA (afterTag (lines.getD i "")) (afterTag (lines.getD j "")))))

/-- Embeds the lookup `next((m["content"] for m in qa["messages"] if m["role"] == "user"), "")`
from line 145. -/
def userContent (qa : QARecord) : String :=
  ((qa.messages.find? (fun m => m.role == "user")).map Message.content).getD ""

/-- The deduplication key of line 145: user question text, stripped and
lowercased. -/
def normQuestion (qa : QARecord) : String :=
  String.mk (pyLowerChars (pyStripChars (userContent qa).toList))

/-- Lines 144-148: append a record and remember its key only if the key
is nonempty and unseen. -/
def dedupInsert (st : List QARecord × List String) (qa : QARecord) :
    List QARecord × List String :=
  let u := normQuestion qa
  if u ≠ "" ∧ u ∉ st.2 then (st.1 ++ [qa], st.2 ++ [u]) else st

/-- Lines 139-150: consume one completed future.  A raised exception is
caught and contributes nothing; a successful payload's records are folded
through `dedupInsert`. -/
def aggStep (st : List QARecord × List String)
    (outcome : Except String (List QARecord)) : List QARecord × List String :=
  match outcome with
  | .error _ => st
  | .ok pairs => pairs.foldl dedupInsert st

/-- Embeds `process_chunks_parallel` (src/qna_pair_generate.py lines 126-152),
abstracted over the per-chunk outcomes in completion order: the final
deduplicated `all_qa` list. -/
def process_chunks_parallel (outcomes : List (Except String (List QARecord))) :
    List QARecord :=
  (outcomes.foldl aggStep ([], [])).1

/-- Embeds `summarize_chunks_parallel` (src/summary.py lines 46-59), abstracted
over the per-chunk outcomes in completion order: successful summaries are
appended, exceptions are caught and skipped. -/
def summarize_chunks_parallel (outcomes : List (Except String String)) :
    List String :=
  outcomes.foldl
    (fun acc r => match r with | .ok s => acc ++ [s] | .error _ => acc) []

/-- Embeds `run_pipeline` (src/summary.py lines 79-84) after loading/splitting,
abstracted over the per-chunk summarizer and the merge call.  Returns the
written artifact (`save_summary` is unconditional) and the number of
calls made to the generation client: one per chunk plus the final
`merge_partial` reduce call, which is issued unconditionally. -/
def run_pipeline_model (docs : List String)
    (summarize : String → Except String String)
    (merge : List String → String) : Option String × Nat :=
  let pieces := summarize_chunks_parallel (docs.map summarize)
  (some (merge pieces), docs.length + 1)

/-- Embeds `main` of src/qna_pair_generate.py (lines 169-191), abstracted over
the loaded text and the per-chunk generator.  Returns the artifact
written by `save_qa_to_jsonl` (`none` when the run stops at the empty
check of line 180 and writes nothing) and the number of generation
calls. -/
def qna_main_model (all_text : String)
    (gen : String → Except String (List QARecord)) :
    Option (List QARecord) × Nat :=
  if pyStrip all_text = "" then (none, 0)
  else
    let chunks := (chunk_text_with_overlap all_text 300 50).getD []
    (some (process_chunks_parallel (chunks.map gen)), chunks.length)

/-! ### General lemmas about the chunking loop -/

/-- When the window advances (`overlap < chunk_size`), fuel at least
`ws.length - start` suffices for the loop to exit normally. -/
theorem chunkTokensLoop_isSome {α : Type} (ws : List α) (C O : Nat)
    (h : O < C) :
    ∀ fuel start, ws.length - start ≤ fuel →
      (chunkTokensLoop ws C O fuel start).isSome := by
  intro fuel
  induction fuel with
  | zero =>
    intro start hle
    simp only [chunkTokensLoop]
    have : ¬ start < ws.length := by omega
    simp [this]
  | succ n ih =>
    intro start hle
    simp only [chunkTokensLoop]
    by_cases hs : start < ws.length
    · have hCO : 1 ≤ C - O := by omega
      have : ws.length - (start + (C - O)) ≤ n := by omega
      simp only [hs, if_true]
      have := ih (start + (C - O)) this
      rcases Option.isSome_iff_exists.mp this with ⟨l, hl⟩
      simp [hl]
    · simp [hs]

/-- A normally-exited loop returns `[]` exactly when the guard was false
on entry. -/
theorem chunkTokensLoop_eq_nil {α : Type} (ws : List α) (C O : Nat) :
    ∀ fuel start l, chunkTokensLoop ws C O fuel start = some l →
      (l = [] ↔ ¬ start < ws.length) := by
  intro fuel start l hl
  cases fuel with
  | zero =>
    by_cases hs : start < ws.length
    · simp [chunkTokensLoop, hs] at hl
    · simp [chunkTokensLoop, hs] at hl
      simp [← hl, hs]
  | succ n =>
    by_cases hs : start < ws.length
    · simp only [chunkTokensLoop, hs, if_true] at hl
      rcases Option.map_eq_some'.mp hl with ⟨rest, _, hrest⟩
      simp [← hrest, hs]
    · simp [chunkTokensLoop, hs] at hl
      simp [← hl, hs]

/-- Chunk `i` of a normally-exited loop is
`ws[start + i*(C-O) : start + i*(C-O) + C]`. -/
theorem chunkTokensLoop_getD {α : Type} (ws : List α) (C O : Nat) :
    ∀ fuel start l, chunkTokensLoop ws C O fuel start = some l →
      ∀ i, i < l.length →
        l.getD i [] = (ws.drop (start + i * (C - O))).take C := by
  intro fuel
  induction fuel with
  | zero =>
    intro start l hl i hi
    by_cases hs : start < ws.length
    · simp [chunkTokensLoop, hs] at hl
    · simp [chunkTokensLoop, hs] at hl
      subst hl
      simp at hi
  | succ n ih =>
    intro start l hl i hi
    by_cases hs : start < ws.length
    · simp only [chunkTokensLoop, hs, if_true] at hl
      rcases Option.map_eq_some'.mp hl with ⟨rest, hrest, hcons⟩
      subst hcons
      cases i with
      | zero => simp
      | succ j =>
        have hj : j < rest.length := by
          simpa using hi
        have := ih (start + (C - O)) rest hrest j hj
        simp only [List.getD_cons_succ]
        rw [this]
        congr 1
        generalize C - O = s
        ring_nf
    · simp [chunkTokensLoop, hs] at hl
      subst hl
      simp at hi

/-- Ceiling-division step identity used for the chunk count. -/
theorem ceil_div_step (d s : Nat) (hd : 1 ≤ d) (hs : 1 ≤ s) :
    (d + s - 1) / s = (d - s + s - 1) / s + 1 := by
  rcases le_or_lt d s with hds | hds
  · have h0 : d - s = 0 := by omega
    have h1 : d + s - 1 = (d - 1) + s := by omega
    rw [h0, h1, Nat.add_div_right _ hs]
    have h2 : (d - 1) / s = 0 := Nat.div_eq_of_lt (by omega)
    have h3 : (s - 1) / s = 0 := Nat.div_eq_of_lt (by omega)
    simp [h2, h3]
  · have h1 : d + s - 1 = (d - 1) + s := by omega
    have h2 : d - s + s - 1 = d - 1 := by omega
    rw [h1, h2, Nat.add_div_right _ hs]

/-- The loop emits `ceil((len - start) / (C - O))` chunks. -/
theorem chunkTokensLoop_length {α : Type} (ws : List α) (C O : Nat)
    (h : O < C) :
    ∀ fuel start l, chunkTokensLoop ws C O fuel start = some l →
      l.length = (ws.length - start + (C - O) - 1) / (C - O) := by
  have hs : 1 ≤ C - O := by omega
  intro fuel
  induction fuel with
  | zero =>
    intro start l hl
    by_cases hlt : start < ws.length
    · simp [chunkTokensLoop, hlt] at hl
    · simp [chunkTokensLoop, hlt] at hl
      subst hl
      have h0 : ws.length - start = 0 := by omega
      rw [h0]
      symm
      apply Nat.div_eq_of_lt
      omega
  | succ n ih =>
    intro start l hl
    by_cases hlt : start < ws.length
    · simp only [chunkTokensLoop, hlt, if_true] at hl
      rcases Option.map_eq_some'.mp hl with ⟨rest, hrest, hcons⟩
      subst hcons
      have hrec := ih (start + (C - O)) rest hrest
      have hd : 1 ≤ ws.length - start := by omega
      have harg : ws.length - (start + (C - O)) = ws.length - start - (C - O) := by
        omega
      rw [harg] at hrec
      simp only [List.length_cons, hrec]
      rw [ceil_div_step (ws.length - start) (C - O) hd hs]
    · simp [chunkTokensLoop, hlt] at hl
      subst hl
      have h0 : ws.length - start = 0 := by omega
      rw [h0]
      symm
      apply Nat.div_eq_of_lt
      omega

/-- Concatenating the non-overlapping prefixes of the chunks the loop
emits reconstructs the token suffix the loop was started on. -/
theorem chunkTokensLoop_cover {α : Type} (ws : List α) (C O : Nat)
    (h : O < C) :
    ∀ fuel start l, chunkTokensLoop ws C O fuel start = some l →
      coverJoin (C - O) l = ws.drop start := by
  intro fuel
  induction fuel with
  | zero =>
    intro start l hl
    by_cases hlt : start < ws.length
    · simp [chunkTokensLoop, hlt] at hl
    · simp [chunkTokensLoop, hlt] at hl
      subst hl
      have hdn : ws.drop start = ([] : List α) := by
        rw [List.drop_eq_nil_iff]
        omega
      simp [coverJoin, hdn]
  | succ n ih =>
    intro start l hl
    by_cases hlt : start < ws.length
    · simp only [chunkTokensLoop, hlt, if_true] at hl
      rcases Option.map_eq_some'.mp hl with ⟨rest, hrest, hcons⟩
      subst hcons
      cases rest with
      | nil =>
        have hend := (chunkTokensLoop_eq_nil ws C O n (start + (C - O)) [] hrest).mp rfl
        simp only [coverJoin]
        exact List.take_of_length_le (by simp; omega)
      | cons r rs =>
        have hcov := ih (start + (C - O)) (r :: rs) hrest
        have hne : coverJoin (C - O) ((ws.drop start).take C :: r :: rs) =
            ((ws.drop start).take C).take (C - O) ++ coverJoin (C - O) (r :: rs) := by
          simp [coverJoin]
        rw [hne, hcov]
        rw [List.take_take, min_eq_left (by omega)]
        have hdd : ws.drop (start + (C - O)) = (ws.drop start).drop (C - O) := by
          rw [List.drop_drop]
        rw [hdd, List.take_append_drop]
    · simp [chunkTokensLoop, hlt] at hl
      subst hl
      have hdn : ws.drop start = ([] : List α) := by
        rw [List.drop_eq_nil_iff]
        omega
      simp [coverJoin, hdn]

/-! ### Lemmas about the Q:/A: line parser -/

/-- A line starting with `A:` does not start with `Q:`. -/
theorem hasTag_a_not_q (line : String) (h : hasTag aTag line = true) :
    hasTag qTag line = false := by
  simp only [hasTag, aTag, qTag, beq_iff_eq, beq_eq_false_iff_ne, ne_eq] at h ⊢
  intro hc
  have h2 : line.toList.take 2 = ['A', ':'] := h
  have hc2 : line.toList.take 2 = ['Q', ':'] := hc
  rw [h2] at hc2
  exact absurd hc2 (by decide)

/-- Lines with neither tag are ignored: filtering them away does not
change the parse, from any parser state. -/
theorem parseQAAux_filter (lines : List String) :
    ∀ st : Option String,
      parseQAAux st (lines.filter (fun l => hasTag qTag l || hasTag aTag l)) =
        parseQAAux st lines := by
  induction lines with
  | nil => intro st; rfl
  | cons l t ih =>
    intro st
    by_cases hq : hasTag qTag l
    · simp [List.filter_cons, hq, parseQAAux, ih]
    · by_cases ha : hasTag aTag l
      · cases st with
        | none => simp [List.filter_cons, hq, ha, parseQAAux, ih]
        | some q =>
          by_cases hqe : q = ""
          · simp [List.filter_cons, hq, ha, parseQAAux, hqe, ih]
          · simp [List.filter_cons, hq, ha, parseQAAux, hqe, ih]
      · simp [List.filter_cons, hq, ha, parseQAAux, ih]

/-- An `A:` line reaching the parser with no pending question is
discarded: it contributes nothing and changes nothing. -/
theorem parseQAAux_a_discarded (la : String) (rest : List String)
    (h : hasTag aTag la = true) :
    parseQAAux none (la :: rest) = parseQAAux none rest := by
  simp [parseQAAux, hasTag_a_not_q la h, h]

/-- A trailing `Q:` line yields no record: appending it does not change
the parse, from any parser state. -/
theorem parseQAAux_trailing_q (lq : String) (hq : hasTag qTag lq = true) :
    ∀ (lines : List String) (st : Option String),
      parseQAAux st (lines ++ [lq]) = parseQAAux st lines := by
  intro lines
  induction lines with
  | nil =>
    intro st
    simp [parseQAAux, hq]
  | cons l t ih =>
    intro st
    by_cases hql : hasTag qTag l
    · simp [parseQAAux, hql, ih]
    · by_cases hal : hasTag aTag l
      · cases st with
        | none => simp [parseQAAux, hql, hal, ih]
        | some q =>
          by_cases hqe : q = ""
          · simp [parseQAAux, hql, hal, hqe, ih]
          · simp [parseQAAux, hql, hal, hqe, ih]
      · simp [parseQAAux, hql, hal, ih]

/-- Every record the parser emits pairs an answer line at index `j` with
either the incoming pending question or a `Q:` line at an earlier index. -/
theorem parseQAAux_pairs (lines : List String) :
    ∀ (st : Option String) (r : QARecord), r ∈ parseQAAux st lines →
      ∃ j, j < lines.length ∧ hasTag aTag (lines.getD j "") = true ∧
        ((∃ q, st = some q ∧ r = mkQA q (afterTag (lines.getD j ""))) ∨
         (∃ i, i < j ∧ hasTag qTag (lines.getD i "") = true ∧
            r = mkQA (afterTag (lines.getD i "")) (afterTag (lines.getD j "")))) := by
  induction lines with
  | nil =>
    intro st r hr
    simp [parseQAAux] at hr
  | cons l t ih =>
    intro st r hr
    by_cases hql : hasTag qTag l
    · simp only [parseQAAux, hql, if_true] at hr
      rcases ih (some (afterTag l)) r hr with ⟨j, hj, ha, hdisj⟩
      refine ⟨j + 1, by simp only [List.length_cons]; omega,
        by simpa [List.getD_cons_succ] using ha, Or.inr ?_⟩
      rcases hdisj with ⟨q, hsome, hrq⟩ | ⟨i, hij, hqi, hri⟩
      · refine ⟨0, by omega, by simpa [List.getD_cons_zero] using hql, ?_⟩
        have hqa : q = afterTag l := by
          injection hsome with h0
          exact h0.symm
        simpa [List.getD_cons_zero, List.getD_cons_succ, ← hqa] using hrq
      · exact ⟨i + 1, by omega, by simpa [List.getD_cons_succ] using hqi,
          by simpa [List.getD_cons_succ] using hri⟩
    · by_cases hal : hasTag aTag l
      · cases st with
        | none =>
          simp only [parseQAAux, hql, hal, if_false, if_true,
            Bool.false_eq_true] at hr
          rcases ih none r hr with ⟨j, hj, ha, hdisj⟩
          refine ⟨j + 1, by simp only [List.length_cons]; omega,
            by simpa [List.getD_cons_succ] using ha, Or.inr ?_⟩
          rcases hdisj with ⟨q, hsome, _⟩ | ⟨i, hij, hqi, hri⟩
          · exact absurd hsome (by simp)
          · exact ⟨i + 1, by omega, by simpa [List.getD_cons_succ] using hqi,
              by simpa [List.getD_cons_succ] using hri⟩
        | some q =>
          by_cases hqe : q = ""
          · simp only [parseQAAux, hql, hal, hqe, if_false, if_true,
              Bool.false_eq_true] at hr
            rcases ih (some q) r (by simpa [hqe] using hr) with ⟨j, hj, ha, hdisj⟩
            refine ⟨j + 1, by simp only [List.length_cons]; omega,
              by simpa [List.getD_cons_succ] using ha, ?_⟩
            rcases hdisj with ⟨q0, hsome, hrq⟩ | ⟨i, hij, hqi, hri⟩
            · exact Or.inl ⟨q0, hsome, by simpa [List.getD_cons_succ] using hrq⟩
            · exact Or.inr ⟨i + 1, by omega,
                by simpa [List.getD_cons_succ] using hqi,
                by simpa [List.getD_cons_succ] using hri⟩
          · simp only [parseQAAux, hql, hal, hqe, if_false, if_true,
              Bool.false_eq_true] at hr
            rcases List.mem_cons.mp hr with hhead | htail
            · exact ⟨0, by simp, by simpa [List.getD_cons_zero] using hal,
                Or.inl ⟨q, rfl, by simpa [List.getD_cons_zero] using hhead⟩⟩
            · rcases ih none r htail with ⟨j, hj, ha, hdisj⟩
              refine ⟨j + 1, by simp only [List.length_cons]; omega,
                by simpa [List.getD_cons_succ] using ha, Or.inr ?_⟩
              rcases hdisj with ⟨q0, hsome, _⟩ | ⟨i, hij, hqi, hri⟩
              · exact absurd hsome (by simp)
              · exact ⟨i + 1, by omega, by simpa [List.getD_cons_succ] using hqi,
                  by simpa [List.getD_cons_succ] using hri⟩
      · simp only [parseQAAux, hql, hal, if_false, Bool.false_eq_true] at hr
        rcases ih st r hr with ⟨j, hj, ha, hdisj⟩
        refine ⟨j + 1, by simp only [List.length_cons]; omega,
          by simpa [List.getD_cons_succ] using ha, ?_⟩
        rcases hdisj with ⟨q0, hsome, hrq⟩ | ⟨i, hij, hqi, hri⟩
        · exact Or.inl ⟨q0, hsome, by simpa [List.getD_cons_succ] using hrq⟩
        · exact Or.inr ⟨i + 1, by omega, by simpa [List.getD_cons_succ] using hqi,
            by simpa [List.getD_cons_succ] using hri⟩

/-- The pairing property, in its decidable-search form. -/
theorem parse_qa_lines_paired (lines : List String) (r : QARecord)
    (hr : r ∈ parse_qa_lines lines) : pairedWith lines r = true := by
  rcases parseQAAux_pairs lines none r hr with ⟨j, hj, ha, hdisj⟩
  rcases hdisj with ⟨q, hsome, _⟩ | ⟨i, hij, hqi, hri⟩
  · exact absurd hsome (by simp)
  · simp only [pairedWith, List.any_eq_true, List.mem_range, Bool.and_eq_true,
      decide_eq_true_eq]
    exact ⟨j, hj, by simpa using ha, i, hij, by simpa using hqi,
      by simpa using hri⟩

/-! ### Lemmas about aggregation and the splitter -/

/-- The dedup invariant: the accumulated records have pairwise distinct
normalized questions, and every accumulated key is in the seen set. -/
def DedupInv (st : List QARecord × List String) : Prop :=
  st.1.Pairwise (fun r1 r2 => normQuestion r1 ≠ normQuestion r2) ∧
    ∀ r ∈ st.1, normQuestion r ∈ st.2

theorem dedupInsert_inv (st : List QARecord × List String) (qa : QARecord)
    (h : DedupInv st) : DedupInv (dedupInsert st qa) := by
  rcases h with ⟨hpw, hseen⟩
  unfold dedupInsert
  by_cases hc : normQuestion qa ≠ "" ∧ normQuestion qa ∉ st.2
  · rw [if_pos hc]
    constructor
    · rw [List.pairwise_append]
      refine ⟨hpw, by simp, ?_⟩
      intro r1 hr1 r2 hr2
      simp only [List.mem_singleton] at hr2
      subst hr2
      intro heq
      exact hc.2 (heq ▸ hseen r1 hr1)
    · intro r hr
      rcases List.mem_append.mp hr with hl | hl
      · exact List.mem_append.mpr (Or.inl (hseen r hl))
      · simp only [List.mem_singleton] at hl
        subst hl
        simp
  · rw [if_neg hc]
    exact ⟨hpw, hseen⟩

theorem foldl_dedupInsert_inv (pairs : List QARecord) :
    ∀ st, DedupInv st → DedupInv (pairs.foldl dedupInsert st) := by
  induction pairs with
  | nil => intro st h; exact h
  | cons qa t ih =>
    intro st h
    exact ih (dedupInsert st qa) (dedupInsert_inv st qa h)

theorem foldl_aggStep_inv (outcomes : List (Except String (List QARecord))) :
    ∀ st, DedupInv st → DedupInv (outcomes.foldl aggStep st) := by
  induction outcomes with
  | nil => intro st h; exact h
  | cons o t ih =>
    intro st h
    cases o with
    | error e => exact ih st h
    | ok pairs => exact ih _ (foldl_dedupInsert_inv pairs st h)

/-- Failed outcomes are invisible to the aggregation fold. -/
theorem foldl_aggStep_filter (outcomes : List (Except String (List QARecord))) :
    ∀ st, (outcomes.filter Except.isOk).foldl aggStep st =
      outcomes.foldl aggStep st := by
  induction outcomes with
  | nil => intro st; rfl
  | cons o t ih =>
    intro st
    cases o with
    | error e => simpa [List.filter_cons, Except.isOk, aggStep] using ih st
    | ok pairs => simpa [List.filter_cons, Except.isOk] using ih (aggStep st (.ok pairs))

/-- The summary fold is exactly `filterMap Except.toOption`. -/
theorem summarize_foldl_eq (outcomes : List (Except String String)) :
    ∀ acc, outcomes.foldl
        (fun acc r => match r with | .ok s => acc ++ [s] | .error _ => acc) acc =
      acc ++ outcomes.filterMap Except.toOption := by
  induction outcomes with
  | nil => intro acc; simp
  | cons o t ih =>
    intro acc
    cases o with
    | error e => simpa [List.filterMap_cons, Except.toOption] using ih acc
    | ok s => simpa [List.filterMap_cons, Except.toOption] using ih (acc ++ [s])

/-- Tokens produced by `splitAux` are nonempty and contain no whitespace,
provided the pending accumulator does. -/
theorem splitAux_tokens (l : List Char) :
    ∀ acc, (∀ c ∈ acc, pyIsSpace c = false) →
      ∀ w ∈ splitAux l acc, w ≠ [] ∧ ∀ c ∈ w, pyIsSpace c = false := by
  induction l with
  | nil =>
    intro acc hacc w hw
    by_cases ha : acc = []
    · simp [splitAux, ha] at hw
    · simp only [splitAux, ha, if_false] at hw
      simp only [List.mem_singleton] at hw
      subst hw
      refine ⟨by simpa using ha, ?_⟩
      intro c hc
      exact hacc c (List.mem_reverse.mp hc)
  | cons c cs ih =>
    intro acc hacc w hw
    by_cases hsp : pyIsSpace c
    · by_cases ha : acc = []
      · simp only [splitAux, hsp, ha, if_true] at hw
        exact ih [] (by simp) w hw
      · simp only [splitAux, hsp, ha, if_true, if_false] at hw
        rcases List.mem_cons.mp hw with hrev | htail
        · subst hrev
          refine ⟨by simpa using ha, ?_⟩
          intro d hd
          exact hacc d (List.mem_reverse.mp hd)
        · exact ih [] (by simp) w htail
    · simp only [splitAux, hsp, if_false] at hw
      refine ih (c :: acc) ?_ w hw
      intro d hd
      rcases List.mem_cons.mp hd with h0 | h0
      · subst h0
        simpa using hsp
      · exact hacc d h0

/-- A string of whitespace only splits to no tokens. -/
theorem splitAux_all_space (l : List Char) (h : ∀ c ∈ l, pyIsSpace c = true) :
    splitAux l [] = [] := by
  induction l with
  | nil => rfl
  | cons c cs ih =>
    have hc : pyIsSpace c = true := h c (by simp)
    simp only [splitAux, hc, if_true]
    exact ih (fun d hd => h d (by simp [hd]))

/-- Every chunk the loop emits is a `take chunk_size`, hence at most
`chunk_size` tokens long. -/
theorem chunkTokensLoop_mem_length {α : Type} (ws : List α) (C O : Nat) :
    ∀ fuel start l, chunkTokensLoop ws C O fuel start = some l →
      ∀ c ∈ l, c.length ≤ C := by
  intro fuel
  induction fuel with
  | zero =>
    intro start l hl c hc
    by_cases hs : start < ws.length
    · simp [chunkTokensLoop, hs] at hl
    · simp [chunkTokensLoop, hs] at hl
      subst hl
      simp at hc
  | succ n ih =>
    intro start l hl c hc
    by_cases hs : start < ws.length
    · simp only [chunkTokensLoop, hs, if_true] at hl
      rcases Option.map_eq_some'.mp hl with ⟨rest, hrest, hcons⟩
      subst hcons
      rcases List.mem_cons.mp hc with h0 | h0
      · subst h0
        exact List.length_take_le ..
      · exact ih _ rest hrest c h0
    · simp [chunkTokensLoop, hs] at hl
      subst hl
      simp at hc

/-- Helper text for the 1000-token scenario: 1000 copies of `"w "`. -/
def c1BigText : String :=
  String.mk (List.flatten (List.replicate 1000 ['w', ' ']))

theorem splitAux_w_space (n : Nat) :
    splitAux (List.flatten (List.replicate n ['w', ' '])) [] =
      List.replicate n ['w'] := by
  induction n with
  | zero => rfl
  | succ m ih =>
    have hrep : List.flatten (List.replicate (m + 1) ['w', ' ']) =
        'w' :: ' ' :: List.flatten (List.replicate m ['w', ' ']) := by
      simp [List.replicate_succ]
    have hw : pyIsSpace 'w' = false := by decide
    have hsp : pyIsSpace ' ' = true := by decide
    rw [hrep]
    simp [splitAux, hw, hsp, ih, List.replicate_succ]

theorem c1BigText_tokens : pySplitTokens c1BigText = List.replicate 1000 ['w'] :=
  splitAux_w_space 1000

/-! ### The claims -/

/-- C1 (amended): for every input and `overlap < chunk_size` the loop
terminates, concatenating the non-overlapping prefixes of successive
chunks reconstructs the token sequence exactly, the chunk strings are the
joined token slices, and the number of chunks is
`ceil(T / (C - O))` — not `ceil((T - O) / (C - O))` as claimed, and 0
(not 1) for `T = 0`; the 1000-token scenario itself is as claimed: any
1000-token input with `chunk_size=300, overlap=50` yields exactly the 4
chunks at token offsets [0,300), [250,550), [500,800), [750,1000), the
last one 250 tokens long. -/
theorem c1_segmentation_coverage :
    (∀ (text : String) (C O : Nat), O < C →
      (tokenChunks text C O).isSome ∧
      coverJoin (C - O) ((tokenChunks text C O).getD []) = pySplitTokens text ∧
      ((tokenChunks text C O).getD []).length =
        ((pySplitTokens text).length + (C - O) - 1) / (C - O) ∧
      chunk_text_with_overlap text C O =
        some (((tokenChunks text C O).getD []).map joinTok)) ∧
    (∀ text : String, (pySplitTokens text).length = 1000 →
      tokenChunks text 300 50 =
        some [(pySplitTokens text).take 300,
              ((pySplitTokens text).drop 250).take 300,
              ((pySplitTokens text).drop 500).take 300,
              ((pySplitTokens text).drop 750).take 300] ∧
      (((pySplitTokens text).drop 750).take 300).length = 250) := by
  constructor
  · intro text C O h
    have hsome := chunkTokensLoop_isSome (pySplitTokens text) C O h
      (pySplitTokens text).length 0 (by omega)
    rcases Option.isSome_iff_exists.mp hsome with ⟨l, hl⟩
    have hl' : tokenChunks text C O = some l := hl
    refine ⟨by rw [hl']; rfl, ?_, ?_, ?_⟩
    · rw [hl', Option.getD_some]
      simpa using chunkTokensLoop_cover (pySplitTokens text) C O h _ 0 l hl
    · rw [hl', Option.getD_some]
      simpa using chunkTokensLoop_length (pySplitTokens text) C O h _ 0 l hl
    · rw [chunk_text_with_overlap, hl', Option.getD_some, Option.map_some']
  · intro text h1000
    have h50 : (50 : Nat) < 300 := by omega
    have hsome := chunkTokensLoop_isSome (pySplitTokens text) 300 50 h50
      (pySplitTokens text).length 0 (by omega)
    rcases Option.isSome_iff_exists.mp hsome with ⟨l, hl⟩
    have hl' : tokenChunks text 300 50 = some l := hl
    have hlen := chunkTokensLoop_length (pySplitTokens text) 300 50 h50 _ 0 l hl
    rw [h1000] at hlen
    have hlen4 : l.length = 4 := by
      rw [hlen]
    have hget := chunkTokensLoop_getD (pySplitTokens text) 300 50 _ 0 l hl
    have h0 : l.getD 0 [] = (pySplitTokens text).take 300 :=
      hget 0 (by omega)
    have h1 : l.getD 1 [] = ((pySplitTokens text).drop 250).take 300 :=
      hget 1 (by omega)
    have h2 : l.getD 2 [] = ((pySplitTokens text).drop 500).take 300 :=
      hget 2 (by omega)
    have h3 : l.getD 3 [] = ((pySplitTokens text).drop 750).take 300 :=
      hget 3 (by omega)
    constructor
    · rw [hl']
      congr 1
      rcases l with _ | ⟨a, _ | ⟨b, _ | ⟨c, _ | ⟨d, rest⟩⟩⟩⟩ <;> simp_all
      exact ⟨by simpa using hget 0 (by omega), by simpa using hget 1 (by omega),
        by simpa using hget 2 (by omega), by simpa using hget 3 (by omega)⟩
    · simp [List.length_take, List.length_drop, h1000]

set_option maxRecDepth 8192 in
/-- C1 counterexample: for the 3-token input `"a b c"` with
`chunk_size=3, overlap=1` the code produces 2 chunks while the claimed
formula `ceil((T-O)/(C-O)) = ceil(2/2)` yields 1. -/
theorem c1_count_counterexample :
    tokenChunks "a b c" 3 1 = some [[['a'], ['b'], ['c']], [['c']]] ∧
    ((3 : Nat) - 1 + ((3 : Nat) - 1) - 1) / ((3 : Nat) - 1) = 1 ∧
    ((tokenChunks "a b c" 3 1).getD []).length ≠ 1 := by
  exact ⟨by decide, by norm_num, by decide⟩

set_option maxRecDepth 8192 in
theorem c1_witness :
    (1 : Nat) < 3 ∧ (tokenChunks "a b c" 3 1).isSome ∧
    coverJoin (3 - 1) ((tokenChunks "a b c" 3 1).getD []) = pySplitTokens "a b c" ∧
    (pySplitTokens c1BigText).length = 1000 ∧
    (((pySplitTokens c1BigText).drop 750).take 300).length = 250 := by
  have hbig : (pySplitTokens c1BigText).length = 1000 := by
    rw [c1BigText_tokens]
    simp
  exact ⟨by decide, (c1_segmentation_coverage.1 "a b c" 3 1 (by decide)).1,
    (c1_segmentation_coverage.1 "a b c" 3 1 (by decide)).2.1, hbig,
    (c1_segmentation_coverage.2 c1BigText hbig).2⟩

/-- C5 (amended): for `overlap < chunk_size`, the trailing `O` tokens of
any adjacent chunk `i` that is full length (`chunk_size` tokens) equal
the leading `O` tokens of chunk `i+1`.  (The unqualified claim fails for
short non-final chunks, see the counterexample.) -/
theorem c5_overlap_invariant (text : String) (C O : Nat) (h : O < C)
    (i : Nat) (hi1 : i + 1 < ((tokenChunks text C O).getD []).length)
    (hfull : (((tokenChunks text C O).getD []).getD i []).length = C) :
    (((tokenChunks text C O).getD []).getD i []).drop
        ((((tokenChunks text C O).getD []).getD i []).length - O) =
      (((tokenChunks text C O).getD []).getD (i + 1) []).take O := by
  have hsome := chunkTokensLoop_isSome (pySplitTokens text) C O h
    (pySplitTokens text).length 0 (by omega)
  rcases Option.isSome_iff_exists.mp hsome with ⟨l, hl⟩
  have hl' : tokenChunks text C O = some l := hl
  rw [hl', Option.getD_some] at hi1 hfull ⊢
  have hget := chunkTokensLoop_getD (pySplitTokens text) C O _ 0 l hl
  have hgi := hget i (by omega)
  have hgi1 := hget (i + 1) hi1
  rw [hfull, hgi, hgi1]
  rw [List.drop_take, List.take_take, min_eq_left (le_of_lt h), List.drop_drop]
  congr 2
  · omega
  · have : 0 + (i + 1) * (C - O) = 0 + i * (C - O) + (C - O) := by
      generalize C - O = s
      ring
    omega

set_option maxRecDepth 8192 in
/-- C5 counterexample: for the 5-token input `"a b c d e"` with
`chunk_size=10, overlap=8` the trailing 8 tokens of chunk 0 differ from
the leading 8 tokens of chunk 1, although they are adjacent chunks and
`overlap < chunk_size`. -/
theorem c5_counterexample :
    (8 : Nat) < 10 ∧
    1 < ((tokenChunks "a b c d e" 10 8).getD []).length ∧
    (((tokenChunks "a b c d e" 10 8).getD []).getD 0 []).drop
        ((((tokenChunks "a b c d e" 10 8).getD []).getD 0 []).length - 8) ≠
      (((tokenChunks "a b c d e" 10 8).getD []).getD 1 []).take 8 := by
  exact ⟨by decide, by decide, by decide⟩

set_option maxRecDepth 8192 in
theorem c5_witness :
    (1 : Nat) < 3 ∧ 0 + 1 < ((tokenChunks "a b c d" 3 1).getD []).length ∧
    (((tokenChunks "a b c d" 3 1).getD []).getD 0 []).length = 3 ∧
    (((tokenChunks "a b c d" 3 1).getD []).getD 0 []).drop
        ((((tokenChunks "a b c d" 3 1).getD []).getD 0 []).length - 1) =
      (((tokenChunks "a b c d" 3 1).getD []).getD (0 + 1) []).take 1 := by
  exact ⟨by decide, by decide, by decide,
    c5_overlap_invariant "a b c d" 3 1 (by decide) 0 (by decide) (by decide)⟩

/-- C6: the code has no precondition check for `overlap >= chunk_size`
and does not reject such calls; instead the window never advances and the
loop never exits, for any amount of fuel (modelled divergence), so the
claimed `ConfigurationError` rejection does not exist in the code. -/
theorem c6_no_overlap_guard :
    (∀ fuel, chunkTokensLoop (pySplitTokens "a b") 2 2 fuel 0 = none) ∧
    chunk_text_with_overlap "a b" 2 2 = none := by
  have hlen : 0 < (pySplitTokens "a b").length := by decide
  constructor
  · intro fuel
    induction fuel with
    | zero => simp [chunkTokensLoop, hlen]
    | succ n ih =>
      simp [chunkTokensLoop, hlen, ih]
  · decide

/-- C7: for `0 ≤ overlap < chunk_size` the loop terminates within
token-count many iterations; chunk `i` starts at token offset
`i * (chunk_size - overlap)` (the window start strictly increases by
`chunk_size - overlap` each iteration), and every chunk — in particular
the final one — has at most `chunk_size` tokens. -/
theorem c7_termination (text : String) (C O : Nat) (h : O < C) :
    (tokenChunks text C O).isSome ∧
    (∀ i, i < ((tokenChunks text C O).getD []).length →
      ((tokenChunks text C O).getD []).getD i [] =
        ((pySplitTokens text).drop (i * (C - O))).take C) ∧
    (∀ c ∈ (tokenChunks text C O).getD [], c.length ≤ C) := by
  have hsome := chunkTokensLoop_isSome (pySplitTokens text) C O h
    (pySplitTokens text).length 0 (by omega)
  rcases Option.isSome_iff_exists.mp hsome with ⟨l, hl⟩
  have hl' : tokenChunks text C O = some l := hl
  refine ⟨by rw [hl']; rfl, ?_, ?_⟩
  · intro i hi
    rw [hl', Option.getD_some] at hi ⊢
    simpa using chunkTokensLoop_getD (pySplitTokens text) C O _ 0 l hl i hi
  · intro c hc
    rw [hl', Option.getD_some] at hc
    exact chunkTokensLoop_mem_length (pySplitTokens text) C O _ 0 l hl c hc

theorem c7_witness :
    (1 : Nat) < 2 ∧ (tokenChunks "a b c" 2 1).isSome ∧
    ((tokenChunks "a b c" 2 1).getD []).getD 0 [] =
      ((pySplitTokens "a b c").drop (0 * (2 - 1))).take 2 := by
  exact ⟨by decide, (c7_termination "a b c" 2 1 (by decide)).1,
    (c7_termination "a b c" 2 1 (by decide)).2.1 0 (by decide)⟩

/-- C2 (amended): the final list never contains two records with the same
normalized question; and two successful payloads whose questions
normalize identically to a *nonempty* string yield exactly the
first-seen record, its answer retained.  (If the common normalization is
empty, both records are dropped — see the counterexample.) -/
theorem c2_dedup_invariant :
    (∀ outcomes : List (Except String (List QARecord)),
      (process_chunks_parallel outcomes).Pairwise
        (fun r1 r2 => normQuestion r1 ≠ normQuestion r2)) ∧
    (∀ qa1 qa2 : QARecord, normQuestion qa1 = normQuestion qa2 →
      normQuestion qa1 ≠ "" →
      process_chunks_parallel [Except.ok [qa1], Except.ok [qa2]] = [qa1]) := by
  constructor
  · intro outcomes
    exact (foldl_aggStep_inv outcomes ([], []) ⟨List.Pairwise.nil, by simp⟩).1
  · intro qa1 qa2 heq hne
    have h1 : dedupInsert ([], []) qa1 = ([qa1], [normQuestion qa1]) := by
      unfold dedupInsert
      rw [if_pos ⟨hne, by simp⟩]
      simp
    have h2 : dedupInsert ([qa1], [normQuestion qa1]) qa2 =
        ([qa1], [normQuestion qa1]) := by
      unfold dedupInsert
      rw [if_neg]
      intro hcon
      exact hcon.2 (by simp [← heq])
    show (List.foldl aggStep ([], []) [Except.ok [qa1], Except.ok [qa2]]).1 = [qa1]
    simp only [List.foldl_cons, List.foldl_nil, aggStep, h1, h2]

/-- C2 counterexample: two successful payloads whose questions both
normalize to the empty string yield zero records, not exactly one. -/
theorem c2_counterexample :
    normQuestion (mkQA " " "a1") = normQuestion (mkQA "" "a2") ∧
    process_chunks_parallel
        [Except.ok [mkQA " " "a1"], Except.ok [mkQA "" "a2"]] = [] ∧
    ([] : List QARecord).length ≠ 1 := by
  exact ⟨by decide, by decide, by decide⟩

theorem c2_witness :
    normQuestion (mkQA "What is X?" "a1") = normQuestion (mkQA " what is x? " "a2") ∧
    normQuestion (mkQA "What is X?" "a1") ≠ "" ∧
    process_chunks_parallel
        [Except.ok [mkQA "What is X?" "a1"], Except.ok [mkQA " what is x? " "a2"]] =
      [mkQA "What is X?" "a1"] := by
  exact ⟨by decide, by decide,
    c2_dedup_invariant.2 (mkQA "What is X?" "a1") (mkQA " what is x? " "a2")
      (by decide) (by decide)⟩

/-- C3: failed per-chunk outcomes are invisible: the QA aggregation of a
batch equals the aggregation of its successful outcomes alone, and the
summary collection is exactly the successful summaries — the run never
aborts (these are total functions of the outcome list). -/
theorem c3_failure_isolation :
    (∀ outcomes : List (Except String (List QARecord)),
      process_chunks_parallel outcomes =
        process_chunks_parallel (outcomes.filter Except.isOk)) ∧
    (∀ outcomes : List (Except String String),
      summarize_chunks_parallel outcomes = outcomes.filterMap Except.toOption) := by
  constructor
  · intro outcomes
    unfold process_chunks_parallel
    rw [foldl_aggStep_filter]
  · intro outcomes
    unfold summarize_chunks_parallel
    simpa using summarize_foldl_eq outcomes []

/-- C4: with zero usable per-chunk results the code does *not* fail with
an empty-result error: the summary pipeline still issues the final merge
call (call count 2 = one failed chunk call + the reduce call) and writes
its output, and the QA pipeline writes an empty artifact. -/
theorem c4_no_empty_result_error :
    run_pipeline_model ["doc"] (fun _ => Except.error "boom") (fun _ => "final") =
      (some "final", 2) ∧
    summarize_chunks_parallel (["doc"].map (fun _ => Except.error "boom")) = [] ∧
    qna_main_model "hello" (fun _ => Except.error "boom") = (some [], 1) := by
  exact ⟨rfl, rfl, by decide⟩

/-- C8: the Q:/A: parser tolerates malformed input: untagged lines are
ignored (filtering them away changes nothing), a leading `A:` with no
pending question is discarded, a trailing `Q:` with no subsequent `A:`
yields no record, and every emitted record pairs a `Q:` line with a
strictly later `A:` line. -/
theorem c8_parser_tolerance :
    (∀ (st : Option String) (lines : List String),
      parseQAAux st (lines.filter (fun l => hasTag qTag l || hasTag aTag l)) =
        parseQAAux st lines) ∧
    (∀ (la : String) (rest : List String), hasTag aTag la = true →
      parse_qa_lines (la :: rest) = parse_qa_lines rest) ∧
    (∀ (lq : String) (lines : List String), hasTag qTag lq = true →
      parse_qa_lines (lines ++ [lq]) = parse_qa_lines lines) ∧
    (∀ (lines : List String) (r : QARecord), r ∈ parse_qa_lines lines →
      pairedWith lines r = true) := by
  exact ⟨fun st lines => parseQAAux_filter lines st,
    fun la rest h => parseQAAux_a_discarded la rest h,
    fun lq lines h => parseQAAux_trailing_q lq h lines none,
    parse_qa_lines_paired⟩

theorem c8_witness :
    hasTag aTag "A: x" = true ∧
    parse_qa_lines ["A: x", "Q: alpha", "A: beta"] =
      parse_qa_lines ["Q: alpha", "A: beta"] ∧
    hasTag qTag "Q: y" = true ∧
    parse_qa_lines (["Q: alpha", "A: beta"] ++ ["Q: y"]) =
      parse_qa_lines ["Q: alpha", "A: beta"] ∧
    mkQA "alpha" "beta" ∈ parse_qa_lines ["junk", "Q: alpha", "mid", "A: beta"] ∧
    pairedWith ["junk", "Q: alpha", "mid", "A: beta"] (mkQA "alpha" "beta") = true ∧
    parseQAAux none
        (["junk", "Q: alpha"].filter (fun l => hasTag qTag l || hasTag aTag l)) =
      parseQAAux none ["junk", "Q: alpha"] := by
  exact ⟨by decide, c8_parser_tolerance.2.1 "A: x" _ (by decide), by decide,
    c8_parser_tolerance.2.2.1 "Q: y" _ (by decide), by decide,
    c8_parser_tolerance.2.2.2 _ _ (by decide),
    c8_parser_tolerance.1 none _⟩

/-- C9 (amended): the segmenter yields an empty chunk sequence on inputs
with no tokens (in particular whitespace-only strings), and the QA
orchestrator stops at its empty-input check without invoking the
executor or the client; the summary pipeline, however, still issues its
reduce call on empty input — see the counterexample. -/
theorem c9_empty_input :
    (∀ (text : String) (C O : Nat), pySplitTokens text = [] →
      chunk_text_with_overlap text C O = some []) ∧
    (∀ text : String, (∀ c ∈ text.toList, pyIsSpace c = true) →
      pySplitTokens text = []) ∧
    (∀ (text : String) (gen : String → Except String (List QARecord)),
      pyStrip text = "" → qna_main_model text gen = (none, 0)) := by
  refine ⟨?_, ?_, ?_⟩
  · intro text C O h
    simp [chunk_text_with_overlap, tokenChunks, h, chunkTokensLoop]
  · intro text h
    simpa [pySplitTokens] using splitAux_all_space text.toList h
  · intro text gen h
    simp [qna_main_model, h]

/-- C9 counterexample: on an empty corpus (zero chunks) the summary
pipeline invokes the generation client once (the unconditional reduce
call) and writes an artifact, so the client is not "never invoked". -/
theorem c9_counterexample :
    run_pipeline_model [] (fun _ => Except.error "e") (fun _ => "merged") =
      (some "merged", 1) ∧ (1 : Nat) ≠ 0 := by
  exact ⟨rfl, by decide⟩

theorem c9_witness :
    pySplitTokens " \t\n " = [] ∧
    chunk_text_with_overlap " \t\n " 300 50 = some [] ∧
    pyStrip "  " = "" ∧
    qna_main_model "  " (fun _ => Except.error "n") = (none, 0) := by
  refine ⟨?_, ?_, by decide, ?_⟩
  · exact c9_empty_input.2.1 " \t\n " (by decide)
  · exact c9_empty_input.1 " \t\n " 300 50 (c9_empty_input.2.1 " \t\n " (by decide))
  · exact c9_empty_input.2.2 "  " _ (by decide)

/-- C10: the segmenter depends only on the whitespace-delimited token
sequence of its input — equal `split()` token lists give identical chunk
lists; every chunk string is its token slice joined by single spaces;
and tokens are nonempty and free of whitespace, so no input whitespace
survives into a chunk. -/
theorem c10_token_determined :
    (∀ (t1 t2 : String) (C O : Nat), pySplitTokens t1 = pySplitTokens t2 →
      chunk_text_with_overlap t1 C O = chunk_text_with_overlap t2 C O) ∧
    (∀ (text : String) (C O : Nat),
      chunk_text_with_overlap text C O =
        (tokenChunks text C O).map (fun cs => cs.map joinTok)) ∧
    (∀ (text : String) (w : List Char), w ∈ pySplitTokens text →
      w ≠ [] ∧ ∀ c ∈ w, pyIsSpace c = false) := by
  refine ⟨?_, fun _ _ _ => rfl, ?_⟩
  · intro t1 t2 C O h
    simp only [chunk_text_with_overlap, tokenChunks, h]
  · intro text w hw
    exact splitAux_tokens text.toList [] (by simp) w hw

theorem c10_witness :
    pySplitTokens "a  b" = pySplitTokens " a b\n" ∧
    chunk_text_with_overlap "a  b" 2 1 = chunk_text_with_overlap " a b\n" 2 1 ∧
    (['a'] ∈ pySplitTokens "a b") ∧ (['a'] : List Char) ≠ [] := by
  refine ⟨by decide, ?_, by decide, ?_⟩
  · exact c10_token_determined.1 "a  b" " a b\n" 2 1 (by decide)
  · exact (c10_token_determined.2.2 "a b" ['a'] (by decide)).1
